import Mathlib

/-!
Verification of the block-level encoding layer of the kudu cfile format:
the GroupVarint32 codec and the integer / string block builder and decoder
pairs. The implementation sources are not in the tree (only the test file
`src/cfile/encoding-test.cc` is), so the definitions below are modelled
from the design specification and checked against the behavior the tests
pin down. Bytes are modelled as natural numbers below 256 held in lists;
machine `uint32` values are naturals below `2 ^ 32`.
-/

/-- Modelled from the spec: the typed error kinds of the hardened
reimplementation (section 7): `CorruptBlock` for undersized headers or
payloads, `InvalidArgument` for out-of-range seeks, `InvalidState` for
lifecycle misuse. -/
inductive DecodeError where
  | CorruptBlock
  | InvalidArgument
  | InvalidState
deriving DecidableEq

/-- Little-endian bytes of `v`, exactly `n` of them (low byte first). -/
def leBytes : Nat → Nat → List Nat
  | _, 0 => []
  | v, n + 1 => v % 256 :: leBytes (v / 256) n

/-- Value of a little-endian byte list (low byte first), zero-extended. -/
def leVal : List Nat → Nat
  | [] => 0
  | b :: rest => b + 256 * leVal rest

/-- Modelled from the spec: the minimal little-endian byte width of a
`uint32` value (leading zero bytes dropped, zero still takes 1 byte). -/
def gvWidth (v : Nat) : Nat :=
  if v < 256 then 1
  else if v < 65536 then 2
  else if v < 16777216 then 3
  else 4

/-- Modelled from the spec: `AppendGroupVarInt32` from the missing
`block_encodings` sources. Appends to `buf` one selector byte packing the
four `width - 1` fields (first value in the most significant bit pair),
then each value in its minimal little-endian width. -/
def appendGroupVarInt32 (buf : List Nat) (a b c d : Nat) : List Nat :=
  buf ++ ((gvWidth a - 1) * 64 + (gvWidth b - 1) * 16
            + (gvWidth c - 1) * 4 + (gvWidth d - 1))
      :: (leBytes a (gvWidth a) ++ leBytes b (gvWidth b)
            ++ leBytes c (gvWidth c) ++ leBytes d (gvWidth d))

/-- Total payload width (in bytes, selector excluded) implied by a
selector byte: the sum of the four 2-bit fields, each plus one. -/
def quadPayloadLen (sel : Nat) : Nat :=
  (sel / 64 % 4 + 1) + (sel / 16 % 4 + 1) + (sel / 4 % 4 + 1) + (sel % 4 + 1)

/-- Bytes a quad decode needs from the start of the span: one selector
byte plus the widths it implies; 1 when the span is empty (no selector
readable at all). -/
def quadRequiredLen : List Nat → Nat
  | [] => 1
  | sel :: _ => 1 + quadPayloadLen sel

/-- Modelled from the spec: `DecodeGroupVarInt32`, hardened with bounds
checks. Reads the selector byte, then each value in its selector-implied
width, zero-extending to 32 bits; returns the four values and the
remaining suffix of the input (the original returns a pointer one past
the last consumed byte). Fails with `CorruptBlock` instead of reading out
of bounds. -/
def decodeGroupVarInt32 (bs : List Nat) :
    Except DecodeError (Nat × Nat × Nat × Nat × List Nat) :=
  match bs with
  | [] => .error .CorruptBlock
  | sel :: rest =>
    let wa := sel / 64 % 4 + 1
    let wb := sel / 16 % 4 + 1
    let wc := sel / 4 % 4 + 1
    let wd := sel % 4 + 1
    if rest.length < wa + wb + wc + wd then .error .CorruptBlock
    else
      let a := leVal (rest.take wa)
      let r1 := rest.drop wa
      let b := leVal (r1.take wb)
      let r2 := r1.drop wb
      let c := leVal (r2.take wc)
      let r3 := r2.drop wc
      let d := leVal (r3.take wd)
      .ok (a, b, c, d, r3.drop wd)

/-- Modelled from the spec: the caller-owned block configuration. Its only
observable effect here is the per-call acceptance limit of an `Add` call
(the exact policy is external to the spec, so it is taken as an explicit
positive bound carried by the options value). -/
structure WriterOptions where
  acceptLimit : Nat

/-- Modelled from the spec: the integer block builder state, a growable
list of pending `uint32` values. -/
structure IntBlockBuilder where
  ints : List Nat

/-- Modelled from the spec: `IntBlockBuilder::Add` appends the given run
to the pending list and reports how many values were accepted (the
integer builder accepts every value handed to it in one call, as the test
relies on). -/
def IntBlockBuilder.add (b : IntBlockBuilder) (vals : List Nat) :
    IntBlockBuilder × Nat :=
  (⟨b.ints ++ vals⟩, vals.length)

/-- Modelled from the spec: `IntBlockBuilder::Reset` clears the pending
values, returning the builder to its just-constructed state. -/
def IntBlockBuilder.reset (_ : IntBlockBuilder) : IntBlockBuilder := ⟨[]⟩

/-- Pad a run of values with zeros up to the next multiple of four, so it
splits into whole quads. -/
def padTo4 (l : List Nat) : List Nat :=
  l ++ List.replicate ((4 - l.length % 4) % 4) 0

/-- Encode a run whose length is a multiple of four as consecutive
GroupVarint32 quads. -/
def encodeQuadSeq : List Nat → List Nat
  | a :: b :: c :: d :: rest => appendGroupVarInt32 [] a b c d ++ encodeQuadSeq rest
  | _ => []

/-- Decode `n` consecutive GroupVarint32 quads, returning the 4 * n
values in order. -/
def decodeQuadSeq : Nat → List Nat → Except DecodeError (List Nat)
  | 0, _ => .ok []
  | n + 1, bs => do
    let (a, b, c, d, rest) ← decodeGroupVarInt32 bs
    let vs ← decodeQuadSeq n rest
    .ok (a :: b :: c :: d :: vs)

/-- Modelled from the spec: `IntBlockBuilder::Finish` serializes a header
quad holding `(ordinal_pos_base, count)` followed by the pending values
grouped into GroupVarint32 quads, the final quad zero-padded. -/
def IntBlockBuilder.finish (b : IntBlockBuilder) (ordinalPosBase : Nat) :
    List Nat :=
  appendGroupVarInt32 [] ordinalPosBase b.ints.length 0 0
    ++ encodeQuadSeq (padTo4 b.ints)

/-- Modelled from the spec: the parsed integer block decoder: the
ordinal-position base and count extracted from the header, the decoded
values (the padded tail already discarded, so `vals.length` is the
block's count), and the emission cursor. -/
structure IntBlockDecoder where
  ordinalPosBase : Nat
  vals : List Nat
  cur : Nat

/-- Modelled from the spec: `IntBlockDecoder::ParseHeader` decodes the
header quad, then the payload quads it announces, truncating the padded
tail at `count`; fails with `CorruptBlock` on an undersized span. -/
def IntBlockDecoder.parseHeader (data : List Nat) :
    Except DecodeError IntBlockDecoder := do
  let (base, count, _, _, rest) ← decodeGroupVarInt32 data
  let all ← decodeQuadSeq ((count + 3) / 4) rest
  .ok ⟨base, all.take count, 0⟩

/-- Modelled from the spec: the number of values in the parsed block. -/
def IntBlockDecoder.count (d : IntBlockDecoder) : Nat := d.vals.length

/-- Modelled from the spec: `ordinal_pos()`, the base plus the number of
values already emitted. -/
def IntBlockDecoder.ordinalPos (d : IntBlockDecoder) : Nat :=
  d.ordinalPosBase + d.cur

/-- Modelled from the spec: `HasNext()`. -/
def IntBlockDecoder.hasNext (d : IntBlockDecoder) : Bool :=
  d.cur < d.vals.length

/-- Modelled from the spec: `GetNextValues(n)` emits up to `n` values
from the cursor, advancing it by the emitted count. -/
def IntBlockDecoder.getNextValues (d : IntBlockDecoder) (n : Nat) :
    IntBlockDecoder × List Nat :=
  let out := (d.vals.drop d.cur).take n
  (⟨d.ordinalPosBase, d.vals, d.cur + out.length⟩, out)

/-- Modelled from the spec: `SeekToPositionInBlock(i)` repositions the
cursor to in-block index `i`; out-of-range indices fail with
`InvalidArgument`. -/
def IntBlockDecoder.seekToPositionInBlock (d : IntBlockDecoder) (i : Nat) :
    Except DecodeError IntBlockDecoder :=
  if i < d.vals.length then .ok ⟨d.ordinalPosBase, d.vals, i⟩
  else .error .InvalidArgument

/-- Drive `GetNextValues` once per element of `sched`, requesting that
many values each time; returns the final decoder and everything emitted. -/
def IntBlockDecoder.drain : IntBlockDecoder → List Nat →
    IntBlockDecoder × List Nat
  | d, [] => (d, [])
  | d, n :: ns =>
    let p := d.getNextValues n
    let q := drain p.1 ns
    (q.1, p.2 ++ q.2)

/-- Encode `v` as exactly four little-endian bytes. -/
def le32 (v : Nat) : List Nat := leBytes v 4

/-- Modelled from the spec: the string block builder state, an ordered
list of owned copies of the appended byte strings. -/
structure StringBlockBuilder where
  strs : List (List Nat)

/-- Modelled from the spec: `StringBlockBuilder::Add` copies up to `n`
strings into owned storage, preserving order; the count accepted per call
is capped by the configuration's acceptance limit (the exact capacity
policy is external, so the limit is the explicit bound carried by
`WriterOptions`). -/
def StringBlockBuilder.add (b : StringBlockBuilder) (opts : WriterOptions)
    (vals : List (List Nat)) : StringBlockBuilder × Nat :=
  let accepted := min vals.length opts.acceptLimit
  (⟨b.strs ++ vals.take accepted⟩, accepted)

/-- Modelled from the spec: `StringBlockBuilder::Count`, the number of
strings accepted so far. -/
def StringBlockBuilder.count (b : StringBlockBuilder) : Nat := b.strs.length

/-- The caller loop of the test: repeatedly `Add` the remaining suffix,
advancing by the count each call accepted; `fuel` bounds the number of
calls. -/
def StringBlockBuilder.addAllLoop (b : StringBlockBuilder)
    (opts : WriterOptions) : List (List Nat) → Nat → StringBlockBuilder
  | _, 0 => b
  | vals, fuel + 1 =>
    match vals with
    | [] => b
    | v :: vs =>
      let p := b.add opts (v :: vs)
      p.1.addAllLoop opts ((v :: vs).drop p.2) fuel

/-- Serialize the strings in order, each one preceded by its length as
four little-endian bytes (the positional metadata letting a decoder walk
to any in-block index). -/
def encodeStringEntries : List (List Nat) → List Nat
  | [] => []
  | s :: rest => le32 s.length ++ s ++ encodeStringEntries rest

/-- Modelled from the spec: `StringBlockBuilder::Finish` serializes a
header quad holding `(ordinal_pos_base, count)` followed by each string
prefixed with its byte length. -/
def StringBlockBuilder.finish (b : StringBlockBuilder)
    (ordinalPosBase : Nat) : List Nat :=
  appendGroupVarInt32 [] ordinalPosBase b.strs.length 0 0
    ++ encodeStringEntries b.strs

/-- Decode `n` length-prefixed strings, failing with `CorruptBlock` when
the span runs out before the announced data. -/
def decodeStringEntries : Nat → List Nat → Except DecodeError (List (List Nat))
  | 0, _ => .ok []
  | n + 1, bs =>
    if bs.length < 4 then .error .CorruptBlock
    else
      let len := leVal (bs.take 4)
      let body := bs.drop 4
      if body.length < len then .error .CorruptBlock
      else do
        let rest ← decodeStringEntries n (body.drop len)
        .ok (body.take len :: rest)

/-- Modelled from the spec: the parsed string block decoder: the base and
count extracted from the header, the decoded strings, and the emission
cursor. -/
structure StringBlockDecoder where
  ordinalPosBase : Nat
  strs : List (List Nat)
  cur : Nat

/-- Modelled from the spec: `StringBlockDecoder::ParseHeader` decodes the
header quad and then the `count` announced strings; fails with
`CorruptBlock` on an undersized span. -/
def StringBlockDecoder.parseHeader (data : List Nat) :
    Except DecodeError StringBlockDecoder := do
  let (base, count, _, _, rest) ← decodeGroupVarInt32 data
  let strs ← decodeStringEntries count rest
  .ok ⟨base, strs, 0⟩

/-- Modelled from the spec: `StringBlockDecoder::Count`. -/
def StringBlockDecoder.count (d : StringBlockDecoder) : Nat := d.strs.length

/-- Modelled from the spec: `ordinal_pos()` of the string decoder. -/
def StringBlockDecoder.ordinalPos (d : StringBlockDecoder) : Nat :=
  d.ordinalPosBase + d.cur

/-- Modelled from the spec: `HasNext()` of the string decoder. -/
def StringBlockDecoder.hasNext (d : StringBlockDecoder) : Bool :=
  d.cur < d.strs.length

/-- Modelled from the spec: `GetNextValues(n)` of the string decoder:
emits up to `n` strings from the cursor on, advancing it by the emitted
count. -/
def StringBlockDecoder.getNextValues (d : StringBlockDecoder) (n : Nat) :
    StringBlockDecoder × List (List Nat) :=
  let out := (d.strs.drop d.cur).take n
  (⟨d.ordinalPosBase, d.strs, d.cur + out.length⟩, out)

/-- Modelled from the spec: `SeekToPositionInBlock(i)` of the string
decoder; an index outside `[0, count)` fails with `InvalidArgument`. -/
def StringBlockDecoder.seekToPositionInBlock (d : StringBlockDecoder)
    (i : Nat) : Except DecodeError StringBlockDecoder :=
  if i < d.strs.length then .ok ⟨d.ordinalPosBase, d.strs, i⟩
  else .error .InvalidArgument

theorem leBytes_length (v n : Nat) : (leBytes v n).length = n := by
  induction n generalizing v with
  | zero => rfl
  | succ n ih => simp [leBytes, ih]

theorem leVal_leBytes (n v : Nat) (h : v < 256 ^ n) :
    leVal (leBytes v n) = v := by
  induction n generalizing v with
  | zero => simp at h; simp [h, leBytes, leVal]
  | succ n ih =>
    have hdiv : v / 256 < 256 ^ n := by
      rw [Nat.div_lt_iff_lt_mul (by norm_num)]
      calc v < 256 ^ (n + 1) := h
        _ = 256 ^ n * 256 := by ring
    simp only [leBytes, leVal, ih _ hdiv]
    omega

theorem gvWidth_pos (v : Nat) : 1 ≤ gvWidth v := by
  unfold gvWidth; split_ifs <;> omega

theorem gvWidth_le (v : Nat) : gvWidth v ≤ 4 := by
  unfold gvWidth; split_ifs <;> omega

theorem lt_pow_gvWidth (v : Nat) (h : v < 2 ^ 32) : v < 256 ^ gvWidth v := by
  unfold gvWidth; split_ifs with h1 h2 h3 <;> norm_num <;> omega

/-- Key round-trip property of the quad codec: decoding the bytes of an
encoded quad followed by any suffix recovers the four values and leaves
exactly that suffix. -/
theorem decodeGroupVarInt32_append (a b c d : Nat) (ext : List Nat)
    (ha : a < 2 ^ 32) (hb : b < 2 ^ 32) (hc : c < 2 ^ 32) (hd : d < 2 ^ 32) :
    decodeGroupVarInt32 (appendGroupVarInt32 [] a b c d ++ ext)
      = .ok (a, b, c, d, ext) := by
  have hpa := gvWidth_pos a
  have hpb := gvWidth_pos b
  have hpc := gvWidth_pos c
  have hpd := gvWidth_pos d
  have hla := gvWidth_le a
  have hlb := gvWidth_le b
  have hlc := gvWidth_le c
  have hld := gvWidth_le d
  set wa := gvWidth a with hwa
  set wb := gvWidth b with hwb
  set wc := gvWidth c with hwc
  set wd := gvWidth d with hwd
  set sel := (wa - 1) * 64 + (wb - 1) * 16 + (wc - 1) * 4 + (wd - 1) with hsel
  have hfa : sel / 64 % 4 + 1 = wa := by omega
  have hfb : sel / 16 % 4 + 1 = wb := by omega
  have hfc : sel / 4 % 4 + 1 = wc := by omega
  have hfd : sel % 4 + 1 = wd := by omega
  have happ : appendGroupVarInt32 [] a b c d ++ ext
      = sel :: (leBytes a wa ++ (leBytes b wb ++ (leBytes c wc
          ++ (leBytes d wd ++ ext)))) := by
    simp [appendGroupVarInt32, hsel]
  rw [happ]
  simp only [decodeGroupVarInt32, hfa, hfb, hfc, hfd]
  have hlen : (leBytes a wa ++ (leBytes b wb ++ (leBytes c wc
      ++ (leBytes d wd ++ ext)))).length = wa + (wb + (wc + (wd + ext.length))) := by
    simp [leBytes_length]
  rw [if_neg (by rw [hlen]; omega)]
  have htake : ∀ (v w : Nat) (tail : List Nat),
      (leBytes v w ++ tail).take w = leBytes v w := by
    intro v w tail
    rw [List.take_append_of_le_length (by simp [leBytes_length])]
    simp [leBytes_length]
  have hdrop : ∀ (v w : Nat) (tail : List Nat),
      (leBytes v w ++ tail).drop w = tail := by
    intro v w tail
    rw [List.drop_append_of_le_length (by simp [leBytes_length])]
    simp [leBytes_length]
  simp only [htake, hdrop]
  rw [leVal_leBytes wa a (lt_pow_gvWidth a ha),
      leVal_leBytes wb b (lt_pow_gvWidth b hb),
      leVal_leBytes wc c (lt_pow_gvWidth c hc),
      leVal_leBytes wd d (lt_pow_gvWidth d hd)]

theorem padTo4_length_mod (l : List Nat) : (padTo4 l).length % 4 = 0 := by
  simp [padTo4]; omega

theorem padTo4_length_div (l : List Nat) :
    (padTo4 l).length / 4 = (l.length + 3) / 4 := by
  simp [padTo4]; omega

theorem padTo4_take (l : List Nat) : (padTo4 l).take l.length = l := by
  simp [padTo4]

theorem padTo4_mem_lt (l : List Nat) (h : ∀ v ∈ l, v < 2 ^ 32) :
    ∀ v ∈ padTo4 l, v < 2 ^ 32 := by
  intro v hv
  rcases List.mem_append.mp hv with h1 | h2
  · exact h v h1
  · have := List.eq_of_mem_replicate h2
    omega

theorem decodeQuadSeq_encodeQuadSeq (l : List Nat)
    (hmod : l.length % 4 = 0) (hlt : ∀ v ∈ l, v < 2 ^ 32) :
    decodeQuadSeq (l.length / 4) (encodeQuadSeq l) = .ok l := by
  induction l using encodeQuadSeq.induct with
  | case1 a b c d rest ih =>
    have hrest : rest.length % 4 = 0 := by
      simp at hmod; omega
    have hdiv : (a :: b :: c :: d :: rest).length / 4 = rest.length / 4 + 1 := by
      simp; omega
    have hmem : ∀ v ∈ rest, v < 2 ^ 32 := by
      intro v hv; exact hlt v (by simp [hv])
    rw [hdiv]
    simp only [encodeQuadSeq, decodeQuadSeq]
    rw [decodeGroupVarInt32_append a b c d (encodeQuadSeq rest)
          (hlt a (by simp)) (hlt b (by simp)) (hlt c (by simp)) (hlt d (by simp))]
    simp [bind, Except.bind, ih hrest hmem]
  | case2 l hne =>
    rcases l with _ | ⟨a, _ | ⟨b, _ | ⟨c, _ | ⟨d, rest⟩⟩⟩⟩
    · simp [encodeQuadSeq, decodeQuadSeq]
    · simp at hmod
    · simp at hmod
    · simp at hmod
    · exact absurd rfl (hne a b c d rest)

/-- Parsing a finished integer block recovers the base, the exact run of
added values (padding discarded), and a cursor at position zero. -/
theorem intParse_finish (ints : List Nat) (base : Nat)
    (hv : ∀ v ∈ ints, v < 2 ^ 32) (hbase : base < 2 ^ 32)
    (hcnt : ints.length < 2 ^ 32) :
    IntBlockDecoder.parseHeader (IntBlockBuilder.finish ⟨ints⟩ base)
      = .ok ⟨base, ints, 0⟩ := by
  have h1 : decodeGroupVarInt32 (appendGroupVarInt32 [] base ints.length 0 0
      ++ encodeQuadSeq (padTo4 ints))
      = .ok (base, ints.length, 0, 0, encodeQuadSeq (padTo4 ints)) :=
    decodeGroupVarInt32_append base ints.length 0 0 _ hbase hcnt
      (by norm_num) (by norm_num)
  have h2 : decodeQuadSeq ((ints.length + 3) / 4) (encodeQuadSeq (padTo4 ints))
      = .ok (padTo4 ints) := by
    have := decodeQuadSeq_encodeQuadSeq (padTo4 ints) (padTo4_length_mod ints)
      (padTo4_mem_lt ints hv)
    rwa [padTo4_length_div] at this
  simp only [IntBlockDecoder.parseHeader, IntBlockBuilder.finish, bind,
    Except.bind, h1, h2, padTo4_take]

/-- A single `GetNextValues` call emits at most the requested count and
advances the cursor by exactly the emitted count. -/
theorem intGetNext_le (d : IntBlockDecoder) (n : Nat) :
    (d.getNextValues n).2.length ≤ n
      ∧ (d.getNextValues n).1.cur = d.cur + (d.getNextValues n).2.length
      ∧ (d.getNextValues n).1.ordinalPosBase = d.ordinalPosBase
      ∧ (d.getNextValues n).1.vals = d.vals := by
  refine ⟨?_, rfl, rfl, rfl⟩
  simp [IntBlockDecoder.getNextValues]

/-- Splitting a list at the actual length of a `take n` prefix restores
the list, also when `n` overshoots. -/
theorem take_len_append_drop (n : Nat) (X : List Nat) :
    X.take n ++ X.drop ((X.take n).length) = X := by
  rw [List.length_take]
  rcases le_total n X.length with h | h
  · rw [Nat.min_eq_left h, List.take_append_drop]
  · rw [Nat.min_eq_right h, List.take_of_length_le h, List.drop_length]
    simp

/-- Draining always emits exactly what the cursor advanced over: the
final cursor is the initial cursor plus the emitted count, and the base
and values are untouched. -/
theorem intDrain_cur (sched : List Nat) (d : IntBlockDecoder) :
    (d.drain sched).1.cur = d.cur + (d.drain sched).2.length
      ∧ (d.drain sched).1.ordinalPosBase = d.ordinalPosBase
      ∧ (d.drain sched).1.vals = d.vals := by
  induction sched generalizing d with
  | nil => simp [IntBlockDecoder.drain]
  | cons n ns ih =>
    rcases ih (d.getNextValues n).1 with ⟨h1, h2, h3⟩
    have g1 : (d.getNextValues n).1.cur = d.cur + (d.getNextValues n).2.length := rfl
    refine ⟨?_, ?_, ?_⟩
    · show ((d.getNextValues n).1.drain ns).1.cur
        = d.cur + ((d.getNextValues n).2 ++ ((d.getNextValues n).1.drain ns).2).length
      rw [h1, g1, List.length_append]
      omega
    · show ((d.getNextValues n).1.drain ns).1.ordinalPosBase = d.ordinalPosBase
      rw [h2]; rfl
    · show ((d.getNextValues n).1.drain ns).1.vals = d.vals
      rw [h3]; rfl

/-- Draining with positive request sizes and at least as many calls as
values left emits exactly the values from the cursor on and ends with the
cursor at the end of the block. -/
theorem intDrain_complete (sched : List Nat) (d : IntBlockDecoder)
    (hpos : ∀ n ∈ sched, 1 ≤ n) (hcur : d.cur ≤ d.vals.length)
    (hlen : d.vals.length - d.cur ≤ sched.length) :
    (d.drain sched).2 = d.vals.drop d.cur
      ∧ (d.drain sched).1.cur = d.vals.length := by
  induction sched generalizing d with
  | nil =>
    have heq : d.cur = d.vals.length := by simp at hlen; omega
    exact ⟨(List.drop_eq_nil_of_le (le_of_eq heq.symm)).symm, heq⟩
  | cons n ns ih =>
    have hn : 1 ≤ n := hpos n (by simp)
    have g0 : (d.getNextValues n).2 = (d.vals.drop d.cur).take n := rfl
    have g1 : (d.getNextValues n).1.cur
        = d.cur + ((d.vals.drop d.cur).take n).length := rfl
    have g3 : (d.getNextValues n).1.vals = d.vals := rfl
    have outlen : ((d.vals.drop d.cur).take n).length
        = min n (d.vals.length - d.cur) := by simp
    have hcur' : (d.getNextValues n).1.cur ≤ (d.getNextValues n).1.vals.length := by
      rw [g1, g3, outlen]; omega
    have hrem : (d.getNextValues n).1.vals.length - (d.getNextValues n).1.cur
        ≤ ns.length := by
      rw [g1, g3, outlen]
      simp at hlen
      omega
    rcases ih (d.getNextValues n).1 (fun m hm => hpos m (by simp [hm])) hcur' hrem
      with ⟨h1, h2⟩
    constructor
    · show (d.getNextValues n).2 ++ ((d.getNextValues n).1.drain ns).2
        = d.vals.drop d.cur
      rw [h1, g0, g3, g1, ← List.drop_drop, take_len_append_drop]
    · show ((d.getNextValues n).1.drain ns).1.cur = d.vals.length
      rw [h2, g3]

theorem decodeStringEntries_encode (l : List (List Nat))
    (h : ∀ s ∈ l, s.length < 2 ^ 32) :
    decodeStringEntries l.length (encodeStringEntries l) = .ok l := by
  induction l with
  | nil => rfl
  | cons s rest ih =>
    have hs : s.length < 2 ^ 32 := h s (by simp)
    have hle : (le32 s.length).length = 4 := leBytes_length _ 4
    simp only [List.length_cons, encodeStringEntries, decodeStringEntries]
    have hlen : (le32 s.length ++ s ++ encodeStringEntries rest).length
        = 4 + s.length + (encodeStringEntries rest).length := by
      simp [hle]
      omega
    rw [if_neg (by rw [hlen]; omega)]
    have htake4 : (le32 s.length ++ s ++ encodeStringEntries rest).take 4
        = le32 s.length := by
      rw [List.append_assoc, List.take_append_of_le_length (by rw [hle])]
      simp [hle]
    have hdrop4 : (le32 s.length ++ s ++ encodeStringEntries rest).drop 4
        = s ++ encodeStringEntries rest := by
      rw [List.append_assoc, List.drop_append_of_le_length (by rw [hle])]
      simp [hle]
    rw [htake4, hdrop4]
    have hval : leVal (le32 s.length) = s.length :=
      leVal_leBytes 4 s.length (by norm_num at hs ⊢; omega)
    rw [hval]
    rw [if_neg (by simp)]
    have htakes : (s ++ encodeStringEntries rest).take s.length = s := by
      rw [List.take_append_of_le_length (le_refl _)]
      simp
    have hdrops : (s ++ encodeStringEntries rest).drop s.length
        = encodeStringEntries rest := by
      rw [List.drop_append_of_le_length (le_refl _)]
      simp
    rw [htakes, hdrops, ih (fun t ht => h t (by simp [ht]))]
    rfl

/-- Parsing a finished string block recovers the base, the exact run of
added strings, and a cursor at position zero. -/
theorem strParse_finish (strs : List (List Nat)) (base : Nat)
    (hs : ∀ s ∈ strs, s.length < 2 ^ 32) (hbase : base < 2 ^ 32)
    (hcnt : strs.length < 2 ^ 32) :
    StringBlockDecoder.parseHeader (StringBlockBuilder.finish ⟨strs⟩ base)
      = .ok ⟨base, strs, 0⟩ := by
  have h1 : decodeGroupVarInt32 (appendGroupVarInt32 [] base strs.length 0 0
      ++ encodeStringEntries strs)
      = .ok (base, strs.length, 0, 0, encodeStringEntries strs) :=
    decodeGroupVarInt32_append base strs.length 0 0 _ hbase hcnt
      (by norm_num) (by norm_num)
  simp only [StringBlockDecoder.parseHeader, StringBlockBuilder.finish, bind,
    Except.bind, h1, decodeStringEntries_encode strs hs]

theorem addAllLoop_complete (opts : WriterOptions) (hl : 1 ≤ opts.acceptLimit)
    (fuel : Nat) :
    ∀ (vals : List (List Nat)) (b : StringBlockBuilder),
      vals.length ≤ fuel →
      (b.addAllLoop opts vals fuel).strs = b.strs ++ vals := by
  induction fuel with
  | zero =>
    intro vals b h
    have hnil : vals = [] := List.eq_nil_of_length_eq_zero (by omega)
    subst hnil
    simp [StringBlockBuilder.addAllLoop]
  | succ fuel ih =>
    intro vals b h
    cases vals with
    | nil => simp [StringBlockBuilder.addAllLoop]
    | cons v vs =>
      simp only [StringBlockBuilder.addAllLoop]
      have hlen : ((v :: vs).drop (b.add opts (v :: vs)).2).length ≤ fuel := by
        show ((v :: vs).drop (min (v :: vs).length opts.acceptLimit)).length ≤ fuel
        simp at h ⊢
        omega
      rw [ih _ _ hlen]
      show (b.strs ++ (v :: vs).take (b.add opts (v :: vs)).2)
          ++ (v :: vs).drop (b.add opts (v :: vs)).2
        = b.strs ++ (v :: vs)
      rw [List.append_assoc, List.take_append_drop]

theorem appendGV_length (a b c d : Nat) :
    (appendGroupVarInt32 [] a b c d).length
      = 1 + gvWidth a + gvWidth b + gvWidth c + gvWidth d := by
  simp [appendGroupVarInt32, leBytes_length]
  omega

theorem encodeStringEntries_length_ge (l : List (List Nat)) :
    4 * l.length ≤ (encodeStringEntries l).length := by
  induction l with
  | nil => simp [encodeStringEntries]
  | cons s rest ih =>
    have h4 : (le32 s.length).length = 4 := leBytes_length _ 4
    simp only [encodeStringEntries, List.length_append, List.length_cons, h4]
    omega

theorem drop_take_one (l : List Nat) (i : Nat) (h : i < l.length) :
    (l.drop i).take 1 = [l[i]] := by
  rw [List.drop_eq_getElem_cons h]
  rfl

theorem str_drop_take_one (l : List (List Nat)) (i : Nat) (h : i < l.length) :
    (l.drop i).take 1 = [l[i]] := by
  rw [List.drop_eq_getElem_cons h]
  rfl

/-- C1: for every quad of uint32 values, decoding the bytes produced by
the GroupVarint32 encode of the quad yields exactly those values, and the
decoder consumes exactly the encoded byte count: it leaves the empty
remainder on the bare encoding, and leaves exactly `ext` when the
encoding is followed by any further bytes `ext`. -/
theorem groupVarint32_roundtrip (a b c d : Nat)
    (ha : a < 2 ^ 32) (hb : b < 2 ^ 32) (hc : c < 2 ^ 32) (hd : d < 2 ^ 32) :
    decodeGroupVarInt32 (appendGroupVarInt32 [] a b c d) = .ok (a, b, c, d, [])
      ∧ ∀ ext : List Nat,
          decodeGroupVarInt32 (appendGroupVarInt32 [] a b c d ++ ext)
            = .ok (a, b, c, d, ext) := by
  refine ⟨?_, fun ext => decodeGroupVarInt32_append a b c d ext ha hb hc hd⟩
  have h := decodeGroupVarInt32_append a b c d [] ha hb hc hd
  simpa using h

/-- Witness for C1 at the quad `(1, 2000, 3, 200000)` from the test. -/
theorem groupVarint32_roundtrip_witness :
    (1 < 2 ^ 32 ∧ 2000 < 2 ^ 32 ∧ 3 < 2 ^ 32 ∧ 200000 < 2 ^ 32)
      ∧ decodeGroupVarInt32 (appendGroupVarInt32 [] 1 2000 3 200000)
          = .ok (1, 2000, 3, 200000, []) :=
  ⟨by norm_num,
    (groupVarint32_roundtrip 1 2000 3 200000 (by norm_num) (by norm_num)
      (by norm_num) (by norm_num)).1⟩

/-- C2: the encoding is byte-exact on the three test vectors — all-zero
quad gives five zero bytes, four one-byte values give the zero selector
then the raw bytes, and the mixed quad `(256, 2, 3, 65535)` gives the
selector `0b01000001 = 65`, `256` as two little-endian bytes, `2` and `3`
as single bytes, `65535` as two little-endian bytes — and in general the
leading selector byte packs the `width - 1` fields from the most
significant bit pair (first value) down to the least significant (fourth
value). -/
theorem groupVarint32_byte_exact :
    appendGroupVarInt32 [] 0 0 0 0 = [0, 0, 0, 0, 0]
      ∧ appendGroupVarInt32 [] 1 2 3 254 = [0, 1, 2, 3, 254]
      ∧ appendGroupVarInt32 [] 256 2 3 65535 = [65, 0, 1, 2, 3, 255, 255]
      ∧ ∀ a b c d : Nat,
          (appendGroupVarInt32 [] a b c d).head?
            = some ((gvWidth a - 1) * 64 + (gvWidth b - 1) * 16
                + (gvWidth c - 1) * 4 + (gvWidth d - 1)) :=
  ⟨by decide, by decide, by decide, fun a b c d => rfl⟩

/-- C6: quad decoding is total and bounds-safe. On any byte span shorter
than one selector byte plus the widths the selector implies, it returns
the typed `CorruptBlock` error; whenever the span is at least that long,
it succeeds, so under the length precondition the error branch is
unreachable. -/
theorem groupVarint32_decode_total (bs : List Nat) :
    (bs.length < quadRequiredLen bs
        → decodeGroupVarInt32 bs = .error .CorruptBlock)
      ∧ (quadRequiredLen bs ≤ bs.length
        → ∃ a b c d rem, decodeGroupVarInt32 bs = .ok (a, b, c, d, rem)) := by
  cases bs with
  | nil =>
    refine ⟨fun _ => rfl, fun h => ?_⟩
    simp [quadRequiredLen] at h
  | cons sel rest =>
    constructor
    · intro h
      have h2 : rest.length < sel / 64 % 4 + 1 + (sel / 16 % 4 + 1)
          + (sel / 4 % 4 + 1) + (sel % 4 + 1) := by
        simp [quadRequiredLen, quadPayloadLen] at h
        omega
      simp only [decodeGroupVarInt32]
      rw [if_pos h2]
    · intro h
      have h2 : ¬(rest.length < sel / 64 % 4 + 1 + (sel / 16 % 4 + 1)
          + (sel / 4 % 4 + 1) + (sel % 4 + 1)) := by
        simp [quadRequiredLen, quadPayloadLen] at h
        omega
      simp only [decodeGroupVarInt32]
      rw [if_neg h2]
      exact ⟨_, _, _, _, _, rfl⟩

/-- Witness for C6: the empty span is too short and fails with
`CorruptBlock`; a five-byte span whose selector implies four payload
bytes is long enough and decodes successfully. -/
theorem groupVarint32_decode_total_witness :
    (([] : List Nat).length < quadRequiredLen []
        ∧ decodeGroupVarInt32 [] = .error .CorruptBlock)
      ∧ (quadRequiredLen [0, 1, 2, 3, 4] ≤ ([0, 1, 2, 3, 4] : List Nat).length
        ∧ ∃ a b c d rem,
            decodeGroupVarInt32 [0, 1, 2, 3, 4] = .ok (a, b, c, d, rem)) :=
  ⟨⟨by decide, (groupVarint32_decode_total []).1 (by decide)⟩,
    ⟨by decide, (groupVarint32_decode_total [0, 1, 2, 3, 4]).2 (by decide)⟩⟩

/-- C7: finishing an int block builder that holds no added values — in
particular any builder just after `Reset` — at base 0 produces exactly
the 5-byte all-zero header quad with no payload. -/
theorem intBlock_empty_finish :
    ∀ b : IntBlockBuilder,
      (b.reset).finish 0 = appendGroupVarInt32 [] 0 0 0 0
        ∧ ((b.reset).finish 0).length = 5
        ∧ (IntBlockBuilder.finish ⟨[]⟩ 0).length = 5 := by
  intro b
  have h : (b.reset).finish 0 = IntBlockBuilder.finish ⟨[]⟩ 0 := rfl
  exact ⟨by rw [h]; decide, by rw [h]; decide, by decide⟩

/-- C3: for every run of uint32 values and every ordinal base, building,
finishing, parsing and draining with arbitrary per-call request sizes
reproduces the run exactly. Parsing the finished block yields the decoder
at the base with cursor zero; `ordinal_pos` starts at the base; every
`GetNextValues` call emits at most the requested count and moves
`ordinal_pos` by exactly the emitted count; any drain whose request sizes
are all positive and whose call count covers the run emits exactly the
run, ends at `base + count`, and exhausts the block; and after any drain
whatsoever `ordinal_pos` equals the base plus the number of values
emitted so far. -/
theorem intBlock_roundtrip (ints : List Nat) (base : Nat)
    (hv : ∀ v ∈ ints, v < 2 ^ 32) (hbase : base < 2 ^ 32)
    (hcnt : ints.length < 2 ^ 32) :
    IntBlockDecoder.parseHeader (IntBlockBuilder.finish ⟨ints⟩ base)
        = .ok ⟨base, ints, 0⟩
      ∧ IntBlockDecoder.ordinalPos ⟨base, ints, 0⟩ = base
      ∧ (∀ (d : IntBlockDecoder) (n : Nat),
          (d.getNextValues n).2.length ≤ n
            ∧ (d.getNextValues n).1.ordinalPos
                = d.ordinalPos + (d.getNextValues n).2.length)
      ∧ (∀ sched : List Nat, (∀ n ∈ sched, 1 ≤ n) →
          ints.length ≤ sched.length →
          (IntBlockDecoder.drain ⟨base, ints, 0⟩ sched).2 = ints
            ∧ (IntBlockDecoder.drain ⟨base, ints, 0⟩ sched).1.ordinalPos
                = base + ints.length
            ∧ (IntBlockDecoder.drain ⟨base, ints, 0⟩ sched).1.hasNext = false)
      ∧ (∀ sched : List Nat,
          (IntBlockDecoder.drain ⟨base, ints, 0⟩ sched).1.ordinalPos
            = base + (IntBlockDecoder.drain ⟨base, ints, 0⟩ sched).2.length) := by
  refine ⟨intParse_finish ints base hv hbase hcnt, rfl, ?_, ?_, ?_⟩
  · intro d n
    refine ⟨(intGetNext_le d n).1, ?_⟩
    simp only [IntBlockDecoder.ordinalPos, (intGetNext_le d n).2.2.1,
      (intGetNext_le d n).2.1]
    omega
  · intro sched hpos hlen
    rcases intDrain_complete sched ⟨base, ints, 0⟩ hpos (by simp) (by simpa)
      with ⟨h1, h2⟩
    rcases intDrain_cur sched ⟨base, ints, 0⟩ with ⟨_, hb, hvls⟩
    refine ⟨by simpa using h1, ?_, ?_⟩
    · simp only [IntBlockDecoder.ordinalPos, hb, h2]
    · simp [IntBlockDecoder.hasNext, h2, hvls]
  · intro sched
    rcases intDrain_cur sched ⟨base, ints, 0⟩ with ⟨hcur, hb, _⟩
    simp only [IntBlockDecoder.ordinalPos, hb, hcur]
    omega

/-- Witness for C3: a five-value run (so the final quad is zero-padded)
at base 3 parses back to the same run. -/
theorem intBlock_roundtrip_witness :
    ((∀ v ∈ [5, 70000, 0, 1, 2], v < 2 ^ 32)
        ∧ 3 < 2 ^ 32 ∧ ([5, 70000, 0, 1, 2] : List Nat).length < 2 ^ 32)
      ∧ IntBlockDecoder.parseHeader
          (IntBlockBuilder.finish ⟨[5, 70000, 0, 1, 2]⟩ 3)
          = .ok ⟨3, [5, 70000, 0, 1, 2], 0⟩ :=
  ⟨⟨by decide, by norm_num, by norm_num⟩,
    (intBlock_roundtrip [5, 70000, 0, 1, 2] 3 (by decide) (by norm_num)
      (by norm_num)).1⟩

/-- C4: on the parsed decoder of a finished block, seeking to any valid
index `i` from any cursor position (forward or backward) succeeds,
reports `ordinal_pos = base + i`, and the following one-value read emits
exactly the value at position `i` of the original input. -/
theorem intBlock_seek (ints : List Nat) (base i cur : Nat)
    (hv : ∀ v ∈ ints, v < 2 ^ 32) (hbase : base < 2 ^ 32)
    (hcnt : ints.length < 2 ^ 32) (hi : i < ints.length) :
    IntBlockDecoder.parseHeader (IntBlockBuilder.finish ⟨ints⟩ base)
        = .ok ⟨base, ints, 0⟩
      ∧ IntBlockDecoder.seekToPositionInBlock ⟨base, ints, cur⟩ i
          = .ok ⟨base, ints, i⟩
      ∧ IntBlockDecoder.ordinalPos ⟨base, ints, i⟩ = base + i
      ∧ IntBlockDecoder.getNextValues ⟨base, ints, i⟩ 1
          = (⟨base, ints, i + 1⟩, [ints[i]]) := by
  refine ⟨intParse_finish ints base hv hbase hcnt, ?_, rfl, ?_⟩
  · simp [IntBlockDecoder.seekToPositionInBlock, hi]
  · have hdt : (ints.drop i).take 1 = [ints[i]] := drop_take_one ints i hi
    simp [IntBlockDecoder.getNextValues, hdt]

/-- Witness for C4: seeking backward from cursor 3 to index 2 in a
four-value block reads back the third value. -/
theorem intBlock_seek_witness :
    ((∀ v ∈ [9, 8, 7, 300], v < 2 ^ 32) ∧ 100 < 2 ^ 32
        ∧ ([9, 8, 7, 300] : List Nat).length < 2 ^ 32
        ∧ 2 < ([9, 8, 7, 300] : List Nat).length)
      ∧ IntBlockDecoder.getNextValues ⟨100, [9, 8, 7, 300], 2⟩ 1
          = (⟨100, [9, 8, 7, 300], 3⟩, [7]) :=
  ⟨⟨by decide, by norm_num, by norm_num, by norm_num⟩,
    (intBlock_seek [9, 8, 7, 300] 100 2 3 (by decide) (by norm_num)
      (by norm_num) (by norm_num)).2.2.2⟩

/-- C5: for a string block built from `k` strings in order and finished
with an ordinal base: the builder reports `Count = k`; parsing yields the
decoder with the base, the `k` strings and cursor zero; its count is `k`
and `ordinal_pos` starts at the base; at every cursor `i` the position is
`base + i` and a one-value read emits exactly the `i`-th appended string
while advancing the cursor; `HasNext` is false after the last string;
seeking to any valid index from any cursor (including iterating backward)
lands at `base + i`; and a single `k`-value read from position zero emits
all `k` strings in order. -/
theorem stringBlock_roundtrip (strs : List (List Nat)) (base : Nat)
    (hs : ∀ s ∈ strs, s.length < 2 ^ 32) (hbase : base < 2 ^ 32)
    (hcnt : strs.length < 2 ^ 32) :
    StringBlockBuilder.count ⟨strs⟩ = strs.length
      ∧ StringBlockDecoder.parseHeader (StringBlockBuilder.finish ⟨strs⟩ base)
          = .ok ⟨base, strs, 0⟩
      ∧ StringBlockDecoder.count ⟨base, strs, 0⟩ = strs.length
      ∧ StringBlockDecoder.ordinalPos ⟨base, strs, 0⟩ = base
      ∧ (∀ (i : Nat) (hi : i < strs.length),
          StringBlockDecoder.ordinalPos ⟨base, strs, i⟩ = base + i
            ∧ StringBlockDecoder.getNextValues ⟨base, strs, i⟩ 1
                = (⟨base, strs, i + 1⟩, [strs.get ⟨i, hi⟩]))
      ∧ StringBlockDecoder.hasNext ⟨base, strs, strs.length⟩ = false
      ∧ (∀ i cur : Nat, i < strs.length →
          StringBlockDecoder.seekToPositionInBlock ⟨base, strs, cur⟩ i
              = .ok ⟨base, strs, i⟩
            ∧ StringBlockDecoder.ordinalPos ⟨base, strs, i⟩ = base + i)
      ∧ (StringBlockDecoder.getNextValues ⟨base, strs, 0⟩ strs.length).2
          = strs := by
  refine ⟨rfl, strParse_finish strs base hs hbase hcnt, rfl, rfl, ?_, ?_, ?_, ?_⟩
  · intro i hi
    refine ⟨rfl, ?_⟩
    have hdt : (strs.drop i).take 1 = [strs[i]] := str_drop_take_one strs i hi
    simp [StringBlockDecoder.getNextValues, hdt]
  · simp [StringBlockDecoder.hasNext]
  · intro i cur hi
    exact ⟨by simp [StringBlockDecoder.seekToPositionInBlock, hi], rfl⟩
  · simp [StringBlockDecoder.getNextValues]

/-- Witness for C5: three strings at base 12345 parse back in order. -/
theorem stringBlock_roundtrip_witness :
    ((∀ s ∈ [[104, 105], [], [33]], List.length s < 2 ^ 32)
        ∧ 12345 < 2 ^ 32
        ∧ ([[104, 105], [], [33]] : List (List Nat)).length < 2 ^ 32)
      ∧ StringBlockDecoder.parseHeader
          (StringBlockBuilder.finish ⟨[[104, 105], [], [33]]⟩ 12345)
          = .ok ⟨12345, [[104, 105], [], [33]], 0⟩ :=
  ⟨⟨by decide, by norm_num, by norm_num⟩,
    (stringBlock_roundtrip [[104, 105], [], [33]] 12345 (by decide)
      (by norm_num) (by norm_num)).2.1⟩

/-- C8: every finished string block holding at least one entry occupies
strictly more than two bytes per entry: the header contributes at least
5 bytes and each entry carries a 4-byte length field besides its data. -/
theorem stringBlock_min_size (b : StringBlockBuilder) (base : Nat)
    (_h : 0 < b.strs.length) :
    2 * b.strs.length < (b.finish base).length := by
  have h1 : (appendGroupVarInt32 [] base b.strs.length 0 0).length
      = 1 + gvWidth base + gvWidth b.strs.length + gvWidth 0 + gvWidth 0 :=
    appendGV_length base b.strs.length 0 0
  have h2 : 4 * b.strs.length ≤ (encodeStringEntries b.strs).length :=
    encodeStringEntries_length_ge b.strs
  have h3 := gvWidth_pos base
  have h4 := gvWidth_pos b.strs.length
  have h5 := gvWidth_pos 0
  simp only [StringBlockBuilder.finish, List.length_append, h1]
  omega

/-- Witness for C8: a one-entry block with a one-byte string takes more
than two bytes. -/
theorem stringBlock_min_size_witness :
    0 < (StringBlockBuilder.mk [[97]]).strs.length
      ∧ 2 * (StringBlockBuilder.mk [[97]]).strs.length
          < (StringBlockBuilder.finish ⟨[[97]]⟩ 0).length :=
  ⟨by decide, stringBlock_min_size ⟨[[97]]⟩ 0 (by decide)⟩

/-- C9: the partial-accept contract of `Add` under a positive acceptance
limit. Every call accepts at most the requested count; a request
exceeding the per-call limit is accepted strictly short; a nonempty
request is never accepted empty; what is accepted is exactly the prefix
of the request, appended in order; and the caller loop that re-offers the
remaining suffix, given one call of fuel per value, terminates having
accepted the entire run. -/
theorem stringBlock_partial_accept (opts : WriterOptions)
    (b : StringBlockBuilder) (vals : List (List Nat))
    (hlim : 1 ≤ opts.acceptLimit) :
    (b.add opts vals).2 ≤ vals.length
      ∧ (opts.acceptLimit < vals.length → (b.add opts vals).2 < vals.length)
      ∧ (1 ≤ vals.length → 1 ≤ (b.add opts vals).2)
      ∧ (b.add opts vals).1.strs = b.strs ++ vals.take (b.add opts vals).2
      ∧ (b.addAllLoop opts vals vals.length).strs = b.strs ++ vals := by
  refine ⟨?_, ?_, ?_, rfl, addAllLoop_complete opts hlim vals.length vals b le_rfl⟩
  · show min vals.length opts.acceptLimit ≤ vals.length
    omega
  · intro hgt
    show min vals.length opts.acceptLimit < vals.length
    omega
  · intro hne
    show 1 ≤ min vals.length opts.acceptLimit
    omega

/-- Witness for C9: with a per-call limit of 1, a three-string run is
accepted in full by the caller loop. -/
theorem stringBlock_partial_accept_witness :
    1 ≤ (WriterOptions.mk 1).acceptLimit
      ∧ ((StringBlockBuilder.mk []).addAllLoop ⟨1⟩ [[1], [2], [3]] 3).strs
          = [] ++ [[1], [2], [3]] :=
  ⟨by decide,
    (stringBlock_partial_accept ⟨1⟩ ⟨[]⟩ [[1], [2], [3]] (by decide)).2.2.2.2⟩

/-- C10 as stated is false at the empty block: the decoder parsed from a
finished zero-string block is already fully drained (`HasNext` is false),
yet `SeekToPositionInBlock 0` does not reposition it — the spec's seek
precondition `0 ≤ i < count` is violated and the call fails with
`InvalidArgument`. -/
theorem stringBlock_reiterate_counterexample :
    StringBlockDecoder.parseHeader (StringBlockBuilder.finish ⟨[]⟩ 0)
        = .ok ⟨0, [], 0⟩
      ∧ StringBlockDecoder.hasNext ⟨0, [], 0⟩ = false
      ∧ StringBlockDecoder.seekToPositionInBlock ⟨0, [], 0⟩ 0
          = .error .InvalidArgument := by
  refine ⟨?_, rfl, rfl⟩
  have h : StringBlockBuilder.finish ⟨[]⟩ 0 = [0, 0, 0, 0, 0] := by decide
  rw [h]
  rfl

/-- C10 amended: for every parsed string block decoder holding at least
one value whose cursor has been fully drained (`HasNext` false), seeking
back to position 0 succeeds, and a subsequent read of `count` values
emits the whole sequence again, identical to the original iteration,
leaving `HasNext` false once more. -/
theorem stringBlock_reiterate (base : Nat) (strs : List (List Nat))
    (cur : Nat) (hdrained : cur = strs.length) (hne : 0 < strs.length) :
    StringBlockDecoder.hasNext ⟨base, strs, cur⟩ = false
      ∧ StringBlockDecoder.seekToPositionInBlock ⟨base, strs, cur⟩ 0
          = .ok ⟨base, strs, 0⟩
      ∧ (StringBlockDecoder.getNextValues ⟨base, strs, 0⟩ strs.length).2 = strs
      ∧ StringBlockDecoder.hasNext
          (StringBlockDecoder.getNextValues ⟨base, strs, 0⟩ strs.length).1
        = false := by
  subst hdrained
  refine ⟨by simp [StringBlockDecoder.hasNext], ?_, ?_, ?_⟩
  · simp [StringBlockDecoder.seekToPositionInBlock, hne]
  · simp [StringBlockDecoder.getNextValues]
  · simp [StringBlockDecoder.hasNext, StringBlockDecoder.getNextValues]

/-- Witness for the amended C10: a drained two-string decoder at base 7
re-emits both strings after seeking back to 0. -/
theorem stringBlock_reiterate_witness :
    (2 = ([[1], [2]] : List (List Nat)).length
        ∧ 0 < ([[1], [2]] : List (List Nat)).length)
      ∧ (StringBlockDecoder.getNextValues ⟨7, [[1], [2]], 0⟩
          ([[1], [2]] : List (List Nat)).length).2 = [[1], [2]] :=
  ⟨⟨by decide, by decide⟩,
    (stringBlock_reiterate 7 [[1], [2]] 2 (by decide) (by decide)).2.2.1⟩
